import Mathlib

/-
Shallow embedding of `src/utils/util.py` from the Convolution-Tutorial
repository.  Machine floating-point reals are modelled by exact rationals
(`ℚ`); the shared numpy random source is abstracted as an explicit input
stream of rationals.  Fallible code (Python exceptions) is modelled with
`Except`.
-/

/-- Predicate for `np.isclose a b` with the default tolerances
`rtol = 1e-5`, `atol = 1e-8`, i.e. `|a - b| <= atol + rtol * |b|`. -/
def isClose (a b : ℚ) : Prop :=
  |a - b| ≤ 1 / 100000000 + (1 / 100000) * |b|

instance (a b : ℚ) : Decidable (isClose a b) := by
  unfold isClose
  infer_instance

/-- Python `min` over a list of floats; `min` of an empty list raises
`ValueError`, so the `[]` value here is never used by the embedded code
(`addingRandomNumbersDemo` guards the empty case separately). -/
def listMin : List ℚ → ℚ
  | [] => 0
  | x :: xs => xs.foldl min x

/-- Python `max` over a list of floats; same remark as `listMin` for `[]`. -/
def listMax : List ℚ → ℚ
  | [] => 0
  | x :: xs => xs.foldl max x

/-- Full discrete convolution, as computed by `np.convolve(a, b)` in its
default `mode='full'`: the output has `len a + len b - 1` entries and entry
`k` is `∑ i, a i * b (k - i)` over the valid indices (out-of-range indices
contribute `0`, which `getD` encodes). -/
def convolve (a b : List ℚ) : List ℚ :=
  (List.range (a.length + b.length - 1)).map (fun k =>
    ∑ i ∈ Finset.range (k + 1), a.getD i 0 * b.getD (k - i) 0)

/-- Number of elements of `np.arange(0, stop, step)`: `⌈stop / step⌉`
clamped to `0` (numpy computes `ceil((stop - start) / step)`).  `step = 0`
raises in numpy and is not modelled (rational division by zero yields `0`
here, so the walk loop body simply never runs at that argument). -/
def arangeLen (stop step : ℚ) : ℕ :=
  (⌈stop / step⌉).toNat

/-- Embedding of `randomWalk(tMax, sigma, eps)`.  The source keeps a list
`signal = [0]`, and for each `t in np.arange(0, tMax, eps)` appends
`signal[-1] + np.random.normal(0, sigma * sqrt(eps))`, finally returning
`signal[1:]`.  The successive return values of the normal sampler (whose
distribution carries `sigma` and the `sqrt eps` scale factor) are
abstracted as the input stream `draws`. -/
def randomWalk (tMax sigma eps : ℚ) (draws : ℕ → ℚ) : List ℚ :=
  ((List.range (arangeLen tMax eps)).foldl
    (fun signal k => signal ++ [signal.getLastD 0 + draws k]) [0]).drop 1

/-- Which of the three `assert` messages of `addingRandomNumbersDemo` an
`AssertionError` (spec name: `InvalidDistributionError`) carries. -/
inductive AssertMsg where
  | negativeEntries
  | notNormalized
  | zeroVariance
  deriving DecidableEq

/-- Error outcomes of the embedded `addingRandomNumbersDemo`:
`valueError` models a Python `ValueError` (from `min`/`max` on an empty
sequence, or the bar-chart shape mismatch inside `setupRun`),
`invalidDistribution` models the `AssertionError` of the three validation
checks, and `indexError` models `barPlot[idx]` indexing out of range. -/
inductive DemoError where
  | valueError
  | invalidDistribution (msg : AssertMsg)
  | indexError
  deriving DecidableEq

instance {ε α : Type} [DecidableEq ε] [DecidableEq α] : DecidableEq (Except ε α) :=
  fun x y =>
    match x, y with
    | Except.ok a, Except.ok b =>
      if h : a = b then Decidable.isTrue (congrArg Except.ok h)
      else Decidable.isFalse (fun hc => h (Except.ok.inj hc))
    | Except.error e, Except.error f =>
      if h : e = f then Decidable.isTrue (congrArg Except.error h)
      else Decidable.isFalse (fun hc => h (Except.error.inj hc))
    | Except.ok _, Except.error _ => Decidable.isFalse (fun hc => Except.noConfusion hc)
    | Except.error _, Except.ok _ => Decidable.isFalse (fun hc => Except.noConfusion hc)

/-- Number of bars created by `setupRun`: `xLocations = range(xMax + 2)`
with `xMax = iters * (len pmf - 1)`. -/
def numBars (pmf : List ℚ) (iters : ℕ) : ℕ :=
  iters * (pmf.length - 1) + 2

/-- The `extendedPMF` of `setupRun`: the pmf padded with
`[0] * (xMax + 2 - len pmf)` zeros.  A negative Python replication count
yields `[]`, which truncated `ℕ` subtraction reproduces. -/
def extendedPMF (pmf : List ℚ) (iters : ℕ) : List ℚ :=
  pmf ++ List.replicate (numBars pmf iters - pmf.length) 0

/-- The rendering loop of `addingRandomNumbersDemo` with `n` iterations
left.  Each pass sets the first `len pmfs[-1]` bar heights to the entries
of `pmfs[-1]` (an `IndexError` if there are more entries than bars),
appends `np.convolve(pmfs[-1], pmfs[0])` to the history, and redraws the
canvas (recorded as a frame holding the current bar heights).  The pacing
`time.sleep` has no observable effect and is not modelled. -/
def demoLoop : ℕ → List (List ℚ) → List ℚ → List (List ℚ) →
    List (List ℚ) × Except DemoError (List (List ℚ))
  | 0, pmfs, _, frames => (frames, Except.ok pmfs)
  | Nat.succ n, pmfs, heights, frames =>
    let cur := pmfs.getLastD []
    if cur.length ≤ heights.length then
      let heights' := cur ++ heights.drop cur.length
      demoLoop n (pmfs ++ [convolve cur (pmfs.headD [])]) heights' (frames ++ [heights'])
    else (frames, Except.error DemoError.indexError)

/-- Embedding of `addingRandomNumbersDemo(pmf, iterations)`.  In source
order: `min pmf` (a `ValueError` when `pmf` is empty), the three
validation asserts, then `setupRun` (which raises a `ValueError` when
`plt.bar` receives `xLocations` and `extendedPMF` of different lengths,
and otherwise draws the initial frame), then the rendering loop.  The
result pairs the frames drawn before termination with either the final
PMF history (`pmfs`) or the raised error. -/
def addingRandomNumbersDemo (pmf : List ℚ) (iterations : ℕ) :
    List (List ℚ) × Except DemoError (List (List ℚ)) :=
  if pmf.isEmpty then
    ([], Except.error DemoError.valueError)
  else if ¬ 0 ≤ listMin pmf then
    ([], Except.error (DemoError.invalidDistribution AssertMsg.negativeEntries))
  else if ¬ isClose pmf.sum 1 then
    ([], Except.error (DemoError.invalidDistribution AssertMsg.notNormalized))
  else if ¬ listMax pmf < 1 then
    ([], Except.error (DemoError.invalidDistribution AssertMsg.zeroVariance))
  else if (extendedPMF pmf iterations).length ≠ numBars pmf iterations then
    ([], Except.error DemoError.valueError)
  else
    demoLoop iterations [pmf] (extendedPMF pmf iterations) [extendedPMF pmf iterations]

/-- The `n`-fold iterated convolution of the loop: element `n` of the PMF
history (`iteratedConv pmf 0 = pmf`, then repeatedly `np.convolve` with
the original pmf). -/
def iteratedConv (pmf : List ℚ) : ℕ → List ℚ
  | 0 => pmf
  | n + 1 => convolve (iteratedConv pmf n) pmf

/-- The PMF history after `n` loop passes: `[pmf, pmf*pmf, ...]`,
`n + 1` elements in all. -/
def pmfHistory (pmf : List ℚ) : ℕ → List (List ℚ)
  | 0 => [pmf]
  | n + 1 => pmfHistory pmf n ++ [iteratedConv pmf (n + 1)]

/-- The three validation checks of `addingRandomNumbersDemo` all pass
(together with the implicit nonemptiness `min`/`max` need). -/
def passesValidation (pmf : List ℚ) : Prop :=
  pmf ≠ [] ∧ 0 ≤ listMin pmf ∧ isClose pmf.sum 1 ∧ listMax pmf < 1

instance (pmf : List ℚ) : Decidable (passesValidation pmf) := by
  unfold passesValidation
  infer_instance

/-- The spec's PMF invariant with exact normalization: every entry lies in
`[0, 1)` and the entries sum to exactly `1`. -/
def isPMFexact (l : List ℚ) : Prop :=
  (∀ x ∈ l, 0 ≤ x ∧ x < 1) ∧ l.sum = 1

instance (l : List ℚ) : Decidable (isPMFexact l) := by
  unfold isPMFexact
  infer_instance

/-- The spec's PMF invariant as literally stated: every entry lies in
`[0, 1)` and the entries sum to `1` within `np.isclose` tolerance. -/
def pmfInvariantClose (l : List ℚ) : Prop :=
  (∀ x ∈ l, 0 ≤ x ∧ x < 1) ∧ isClose l.sum 1

instance (l : List ℚ) : Decidable (pmfInvariantClose l) := by
  unfold pmfInvariantClose
  infer_instance

/-- True exactly when the demo outcome is the `AssertionError`
(`InvalidDistributionError`) of the validation checks. -/
def errIsInvalidDistribution : Except DemoError (List (List ℚ)) → Bool
  | Except.error (DemoError.invalidDistribution _) => true
  | _ => false

/-- True exactly when the demo ran to completion. -/
def demoOutcomeOk : Except DemoError (List (List ℚ)) → Bool
  | Except.ok _ => true
  | _ => false

/-- The PMF history returned by a successful run (and `[]` on an error). -/
def demoHistory (pmf : List ℚ) (iterations : ℕ) : List (List ℚ) :=
  match (addingRandomNumbersDemo pmf iterations).2 with
  | Except.ok h => h
  | Except.error _ => []

/-- A degenerate draw stream: the random source always returns `0`
(the `sigma = 0` walk of the spec). -/
def zeroDraws : ℕ → ℚ := fun _ => 0

/-- A concrete deterministic draw stream used for witnesses. -/
def natDraws : ℕ → ℚ := fun k => (k : ℚ)

/- ### List-level helper lemmas -/

theorem sum_map_range (f : ℕ → ℚ) (n : ℕ) :
    ((List.range n).map f).sum = ∑ i ∈ Finset.range n, f i := by
  induction n with
  | zero => simp
  | succ n ih =>
    rw [List.range_succ, List.map_append, List.sum_append, Finset.sum_range_succ, ih]
    simp

theorem sum_eq_sum_getD (l : List ℚ) :
    l.sum = ∑ i ∈ Finset.range l.length, l.getD i 0 := by
  induction l with
  | nil => simp
  | cons x xs ih =>
    rw [List.sum_cons, List.length_cons, Finset.sum_range_succ']
    simp only [List.getD_cons_succ, List.getD_cons_zero]
    rw [ih]
    ring

theorem sum_range_getD_of_le (l : List ℚ) {K : ℕ} (hK : l.length ≤ K) :
    ∑ i ∈ Finset.range K, l.getD i 0 = l.sum := by
  rw [sum_eq_sum_getD]
  symm
  apply Finset.sum_subset (Finset.range_subset.mpr hK)
  intro i _ hi
  exact List.getD_eq_default _ _ (le_of_not_lt (fun hlt => hi (Finset.mem_range.mpr hlt)))

theorem getD_nonneg {l : List ℚ} (h : ∀ x ∈ l, 0 ≤ x) (i : ℕ) : 0 ≤ l.getD i 0 := by
  by_cases hi : i < l.length
  · rw [List.getD_eq_getElem l 0 hi]
    exact h _ (List.getElem_mem hi)
  · rw [List.getD_eq_default _ _ (le_of_not_lt hi)]

theorem getD_le_of_le {l : List ℚ} {M : ℚ} (hM : 0 ≤ M) (h : ∀ x ∈ l, x ≤ M) (i : ℕ) :
    l.getD i 0 ≤ M := by
  by_cases hi : i < l.length
  · rw [List.getD_eq_getElem l 0 hi]
    exact h _ (List.getElem_mem hi)
  · rw [List.getD_eq_default _ _ (le_of_not_lt hi)]
    exact hM

theorem sum_range_le_listSum {l : List ℚ} (h : ∀ x ∈ l, 0 ≤ x) (K : ℕ) :
    ∑ i ∈ Finset.range K, l.getD i 0 ≤ l.sum := by
  calc ∑ i ∈ Finset.range K, l.getD i 0
      ≤ ∑ i ∈ Finset.range (K + l.length), l.getD i 0 := by
        apply Finset.sum_le_sum_of_subset_of_nonneg
        · exact Finset.range_subset.mpr (Nat.le_add_right _ _)
        · intro i _ _
          exact getD_nonneg h i
    _ = l.sum := sum_range_getD_of_le l (Nat.le_add_left _ _)

/- ### Python min / max over lists -/

theorem left_le_foldl_max : ∀ (xs : List ℚ) (a : ℚ), a ≤ xs.foldl max a := by
  intro xs
  induction xs with
  | nil => intro a; exact le_refl a
  | cons y ys ih =>
    intro a
    exact le_trans (le_max_left a y) (ih (max a y))

theorem mem_le_foldl_max : ∀ (xs : List ℚ) (a y : ℚ), y ∈ xs → y ≤ xs.foldl max a := by
  intro xs
  induction xs with
  | nil => intro a y hy; cases hy
  | cons z zs ih =>
    intro a y hy
    rcases List.mem_cons.mp hy with h | h
    · subst h
      exact le_trans (le_max_right a y) (left_le_foldl_max zs (max a y))
    · exact ih (max a z) y h

theorem foldl_max_mem : ∀ (xs : List ℚ) (a : ℚ), xs.foldl max a = a ∨ xs.foldl max a ∈ xs := by
  intro xs
  induction xs with
  | nil => intro a; exact Or.inl rfl
  | cons y ys ih =>
    intro a
    rw [List.foldl_cons]
    rcases ih (max a y) with h | h
    · rcases le_total a y with hay | hya
      · right
        rw [h, max_eq_right hay]
        exact List.mem_cons_self y ys
      · left
        rw [h, max_eq_left hya]
    · right
      exact List.mem_cons_of_mem y h

theorem le_listMax_of_mem {l : List ℚ} {x : ℚ} (hx : x ∈ l) : x ≤ listMax l := by
  cases l with
  | nil => cases hx
  | cons y ys =>
    rcases List.mem_cons.mp hx with h | h
    · subst h
      exact left_le_foldl_max ys x
    · exact mem_le_foldl_max ys y x h

theorem listMax_mem {l : List ℚ} (hl : l ≠ []) : listMax l ∈ l := by
  cases l with
  | nil => exact absurd rfl hl
  | cons y ys =>
    rcases foldl_max_mem ys y with h | h
    · rw [listMax, h]
      exact List.mem_cons_self y ys
    · exact List.mem_cons_of_mem y h

theorem foldl_min_le_left : ∀ (xs : List ℚ) (a : ℚ), xs.foldl min a ≤ a := by
  intro xs
  induction xs with
  | nil => intro a; exact le_refl a
  | cons y ys ih =>
    intro a
    exact le_trans (ih (min a y)) (min_le_left a y)

theorem foldl_min_le_mem : ∀ (xs : List ℚ) (a y : ℚ), y ∈ xs → xs.foldl min a ≤ y := by
  intro xs
  induction xs with
  | nil => intro a y hy; cases hy
  | cons z zs ih =>
    intro a y hy
    rcases List.mem_cons.mp hy with h | h
    · subst h
      exact le_trans (foldl_min_le_left zs (min a y)) (min_le_right a y)
    · exact ih (min a z) y h

theorem foldl_min_mem : ∀ (xs : List ℚ) (a : ℚ), xs.foldl min a = a ∨ xs.foldl min a ∈ xs := by
  intro xs
  induction xs with
  | nil => intro a; exact Or.inl rfl
  | cons y ys ih =>
    intro a
    rw [List.foldl_cons]
    rcases ih (min a y) with h | h
    · rcases le_total a y with hay | hya
      · left
        rw [h, min_eq_left hay]
      · right
        rw [h, min_eq_right hya]
        exact List.mem_cons_self y ys
    · right
      exact List.mem_cons_of_mem y h

theorem listMin_le_of_mem {l : List ℚ} {x : ℚ} (hx : x ∈ l) : listMin l ≤ x := by
  cases l with
  | nil => cases hx
  | cons y ys =>
    rcases List.mem_cons.mp hx with h | h
    · subst h
      exact foldl_min_le_left ys x
    · exact foldl_min_le_mem ys y x h

theorem listMin_mem {l : List ℚ} (hl : l ≠ []) : listMin l ∈ l := by
  cases l with
  | nil => exact absurd rfl hl
  | cons y ys =>
    rcases foldl_min_mem ys y with h | h
    · rw [listMin, h]
      exact List.mem_cons_self y ys
    · exact List.mem_cons_of_mem y h

theorem listMin_nonneg_iff {l : List ℚ} (hl : l ≠ []) :
    0 ≤ listMin l ↔ ∀ x ∈ l, 0 ≤ x := by
  constructor
  · intro h x hx
    exact le_trans h (listMin_le_of_mem hx)
  · intro h
    exact h _ (listMin_mem hl)

theorem neg_entry_iff {l : List ℚ} (hl : l ≠ []) :
    (∃ x ∈ l, x < 0) ↔ ¬ 0 ≤ listMin l := by
  rw [listMin_nonneg_iff hl]
  push_neg
  rfl

theorem listMax_nonneg {l : List ℚ} (hl : l ≠ []) (h : ∀ x ∈ l, 0 ≤ x) :
    0 ≤ listMax l :=
  le_trans (h _ (listMax_mem hl)) (le_refl _)

/- ### Convolution lemmas -/

theorem convolve_length (a b : List ℚ) :
    (convolve a b).length = a.length + b.length - 1 := by
  unfold convolve
  rw [List.length_map, List.length_range]

theorem convolve_ne_nil {a b : List ℚ} (ha : a ≠ []) (hb : b ≠ []) :
    convolve a b ≠ [] := by
  have hla := List.length_pos.mpr ha
  have hlb := List.length_pos.mpr hb
  intro h
  have := convolve_length a b
  rw [h] at this
  simp only [List.length_nil] at this
  omega

theorem convolve_getD {a b : List ℚ} {k : ℕ} (hk : k < (convolve a b).length) :
    (convolve a b).getD k 0 =
      ∑ i ∈ Finset.range (k + 1), a.getD i 0 * b.getD (k - i) 0 := by
  unfold convolve
  rw [convolve_length] at hk
  rw [List.getD_eq_getElem _ _ (by simpa using hk)]
  simp

theorem convolve_mem {a b : List ℚ} {x : ℚ} (hx : x ∈ convolve a b) :
    ∃ k < a.length + b.length - 1,
      x = ∑ i ∈ Finset.range (k + 1), a.getD i 0 * b.getD (k - i) 0 := by
  unfold convolve at hx
  rcases List.mem_map.mp hx with ⟨k, hk, rfl⟩
  exact ⟨k, List.mem_range.mp hk, rfl⟩

theorem convolve_sum {a b : List ℚ} (ha : a ≠ []) (hb : b ≠ []) :
    (convolve a b).sum = a.sum * b.sum := by
  have hla := List.length_pos.mpr ha
  have hlb := List.length_pos.mpr hb
  unfold convolve
  rw [sum_map_range]
  rw [Finset.sum_range_diag_flip (a.length + b.length - 1)
    (fun i j => a.getD i 0 * b.getD j 0)]
  have hstep : ∀ m ∈ Finset.range (a.length + b.length - 1),
      ∑ k ∈ Finset.range (a.length + b.length - 1 - m), a.getD m 0 * b.getD k 0 =
        a.getD m 0 * b.sum := by
    intro m hm
    rw [← Finset.mul_sum]
    by_cases hma : m < a.length
    · rw [sum_range_getD_of_le b (by omega)]
    · rw [List.getD_eq_default _ _ (le_of_not_lt hma)]
      ring
  rw [Finset.sum_congr rfl hstep, ← Finset.sum_mul,
    sum_range_getD_of_le a (by omega)]

theorem convolve_nonneg {a b : List ℚ} (ha : ∀ x ∈ a, 0 ≤ x) (hb : ∀ x ∈ b, 0 ≤ x) :
    ∀ x ∈ convolve a b, 0 ≤ x := by
  intro x hx
  rcases convolve_mem hx with ⟨k, _, rfl⟩
  apply Finset.sum_nonneg
  intro i _
  exact mul_nonneg (getD_nonneg ha i) (getD_nonneg hb (k - i))

theorem convolve_entry_le {a b : List ℚ} (hb : b ≠ [])
    (ha : ∀ x ∈ a, 0 ≤ x) (hbn : ∀ x ∈ b, 0 ≤ x) :
    ∀ x ∈ convolve a b, x ≤ a.sum * listMax b := by
  intro x hx
  rcases convolve_mem hx with ⟨k, _, rfl⟩
  have hM : 0 ≤ listMax b := listMax_nonneg hb hbn
  calc ∑ i ∈ Finset.range (k + 1), a.getD i 0 * b.getD (k - i) 0
      ≤ ∑ i ∈ Finset.range (k + 1), a.getD i 0 * listMax b := by
        apply Finset.sum_le_sum
        intro i _
        exact mul_le_mul_of_nonneg_left
          (getD_le_of_le hM (fun y hy => le_listMax_of_mem hy) (k - i))
          (getD_nonneg ha i)
    _ = (∑ i ∈ Finset.range (k + 1), a.getD i 0) * listMax b := by
        rw [Finset.sum_mul]
    _ ≤ a.sum * listMax b :=
        mul_le_mul_of_nonneg_right (sum_range_le_listSum ha (k + 1)) hM

theorem convolve_getD_valid {a b : List ℚ} (hb : b ≠ []) {k : ℕ}
    (hk : k < (convolve a b).length) :
    (convolve a b).getD k 0 =
      ∑ i ∈ (Finset.range a.length).filter (fun i => i ≤ k ∧ k - i < b.length),
        a.getD i 0 * b.getD (k - i) 0 := by
  rw [convolve_getD hk]
  symm
  apply Finset.sum_subset
  · intro i hi
    rcases Finset.mem_filter.mp hi with ⟨_, hik, _⟩
    exact Finset.mem_range.mpr (by omega)
  · intro i hi hni
    rcases Finset.mem_range.mp hi with hik
    by_cases hia : i < a.length
    · by_cases hkb : k - i < b.length
      · exact absurd (Finset.mem_filter.mpr
          ⟨Finset.mem_range.mpr hia, by omega, hkb⟩) hni
      · rw [List.getD_eq_default b _ (le_of_not_lt hkb)]
        ring
    · rw [List.getD_eq_default a _ (le_of_not_lt hia)]
      ring

/- ### Iterated convolution and the PMF history -/

theorem iteratedConv_ne_nil {pmf : List ℚ} (h : pmf ≠ []) (n : ℕ) :
    iteratedConv pmf n ≠ [] := by
  induction n with
  | zero => exact h
  | succ n ih => exact convolve_ne_nil ih h

theorem iteratedConv_length {pmf : List ℚ} (h : pmf ≠ []) (n : ℕ) :
    (iteratedConv pmf n).length = pmf.length + n * (pmf.length - 1) := by
  have hL := List.length_pos.mpr h
  induction n with
  | zero => simp [iteratedConv]
  | succ n ih =>
    have hn := List.length_pos.mpr (iteratedConv_ne_nil h n)
    show (convolve (iteratedConv pmf n) pmf).length = _
    rw [convolve_length, ih, Nat.succ_mul]
    omega

theorem iteratedConv_sum {pmf : List ℚ} (h : pmf ≠ []) (hs : pmf.sum = 1) (n : ℕ) :
    (iteratedConv pmf n).sum = 1 := by
  induction n with
  | zero => exact hs
  | succ n ih =>
    show (convolve (iteratedConv pmf n) pmf).sum = 1
    rw [convolve_sum (iteratedConv_ne_nil h n) h, ih, hs, one_mul]

theorem iteratedConv_isPMF {pmf : List ℚ} (h : pmf ≠ [])
    (hnn : ∀ x ∈ pmf, 0 ≤ x) (hs : pmf.sum = 1) (hmax : listMax pmf < 1) (n : ℕ) :
    isPMFexact (iteratedConv pmf n) := by
  induction n with
  | zero =>
    refine ⟨fun x hx => ⟨hnn x hx, ?_⟩, hs⟩
    exact lt_of_le_of_lt (le_listMax_of_mem hx) hmax
  | succ n ih =>
    rcases ih with ⟨hent, hsum⟩
    have hnn' : ∀ x ∈ iteratedConv pmf n, 0 ≤ x := fun x hx => (hent x hx).1
    constructor
    · intro x hx
      refine ⟨convolve_nonneg hnn' hnn x hx, ?_⟩
      have := convolve_entry_le h hnn' hnn x hx
      rw [hsum, one_mul] at this
      exact lt_of_le_of_lt this hmax
    · show (convolve (iteratedConv pmf n) pmf).sum = 1
      rw [convolve_sum (iteratedConv_ne_nil h n) h, hsum, hs, one_mul]

theorem pmfHistory_length (pmf : List ℚ) (n : ℕ) :
    (pmfHistory pmf n).length = n + 1 := by
  induction n with
  | zero => rfl
  | succ n ih =>
    show (pmfHistory pmf n ++ [iteratedConv pmf (n + 1)]).length = n + 2
    rw [List.length_append, ih]
    rfl

theorem pmfHistory_cons (pmf : List ℚ) (n : ℕ) :
    ∃ t, pmfHistory pmf n = pmf :: t := by
  induction n with
  | zero => exact ⟨[], rfl⟩
  | succ n ih =>
    rcases ih with ⟨t, ht⟩
    exact ⟨t ++ [iteratedConv pmf (n + 1)], by
      show pmfHistory pmf n ++ [iteratedConv pmf (n + 1)] = _
      rw [ht]
      rfl⟩

theorem pmfHistory_headD (pmf : List ℚ) (n : ℕ) :
    (pmfHistory pmf n).headD [] = pmf := by
  rcases pmfHistory_cons pmf n with ⟨t, ht⟩
  rw [ht]
  rfl

theorem pmfHistory_getLastD (pmf : List ℚ) (n : ℕ) :
    (pmfHistory pmf n).getLastD [] = iteratedConv pmf n := by
  cases n with
  | zero => rfl
  | succ n =>
    show (pmfHistory pmf n ++ [iteratedConv pmf (n + 1)]).getLastD [] = _
    exact List.getLastD_concat _ _ _

theorem getD_concat_length (l : List (List ℚ)) (x : List ℚ) :
    (l ++ [x]).getD l.length [] = x := by
  induction l with
  | nil => rfl
  | cons y ys ih => simpa using ih

theorem pmfHistory_getD {pmf : List ℚ} {n m : ℕ} (hnm : n ≤ m) :
    (pmfHistory pmf m).getD n [] = iteratedConv pmf n := by
  induction m with
  | zero =>
    interval_cases n
    rfl
  | succ m ih =>
    show (pmfHistory pmf m ++ [iteratedConv pmf (m + 1)]).getD n [] = _
    rcases Nat.lt_or_ge n (m + 1) with h | h
    · rw [List.getD_append _ _ _ _ (by rw [pmfHistory_length]; omega)]
      exact ih (by omega)
    · have hn : n = m + 1 := by omega
      subst hn
      have := getD_concat_length (pmfHistory pmf m) (iteratedConv pmf (m + 1))
      rwa [pmfHistory_length] at this

theorem pmfHistory_mem {pmf : List ℚ} {q : List ℚ} {n : ℕ}
    (hq : q ∈ pmfHistory pmf n) : ∃ m ≤ n, q = iteratedConv pmf m := by
  induction n with
  | zero =>
    rcases List.mem_singleton.mp hq with rfl
    exact ⟨0, le_refl 0, rfl⟩
  | succ n ih =>
    rcases List.mem_append.mp hq with h | h
    · rcases ih h with ⟨m, hm, rfl⟩
      exact ⟨m, by omega, rfl⟩
    · rcases List.mem_singleton.mp h with rfl
      exact ⟨n + 1, le_refl _, rfl⟩

/- ### The random walk as partial sums -/

theorem getLastD_cons_append (x : ℚ) (l : List ℚ) (y : ℚ) :
    (x :: (l ++ [y])).getLastD 0 = y := by
  rw [show x :: (l ++ [y]) = (x :: l) ++ [y] from rfl, List.getLastD_concat]

theorem randomWalk_foldl (draws : ℕ → ℚ) (n : ℕ) :
    (List.range n).foldl (fun signal k => signal ++ [signal.getLastD 0 + draws k]) [0] =
      0 :: (List.range n).map (fun k => ∑ i ∈ Finset.range (k + 1), draws i) := by
  induction n with
  | zero => rfl
  | succ n ih =>
    rw [List.range_succ, List.foldl_append, ih, List.foldl_cons, List.foldl_nil,
      List.map_append]
    have hlast : (0 :: (List.range n).map
        (fun k => ∑ i ∈ Finset.range (k + 1), draws i)).getLastD 0 =
        ∑ i ∈ Finset.range n, draws i := by
      cases n with
      | zero => simp
      | succ m =>
        simp only [List.range_succ, List.map_append, List.map_cons, List.map_nil]
        rw [getLastD_cons_append]
    rw [hlast, ← Finset.sum_range_succ]
    rfl

theorem randomWalk_eq_partialSums (tMax sigma eps : ℚ) (draws : ℕ → ℚ) :
    randomWalk tMax sigma eps draws =
      (List.range (arangeLen tMax eps)).map
        (fun k => ∑ i ∈ Finset.range (k + 1), draws i) := by
  unfold randomWalk
  rw [randomWalk_foldl]
  rfl

theorem randomWalk_length (tMax sigma eps : ℚ) (draws : ℕ → ℚ) :
    (randomWalk tMax sigma eps draws).length = arangeLen tMax eps := by
  rw [randomWalk_eq_partialSums]
  rw [List.length_map, List.length_range]

/- ### Demo loop lemmas -/

theorem demoLoop_zero (pmfs : List (List ℚ)) (heights : List ℚ) (frames : List (List ℚ)) :
    demoLoop 0 pmfs heights frames = (frames, Except.ok pmfs) := rfl

theorem demoLoop_succ (n : ℕ) (pmfs : List (List ℚ)) (heights : List ℚ)
    (frames : List (List ℚ)) :
    demoLoop (n + 1) pmfs heights frames =
      if (pmfs.getLastD []).length ≤ heights.length then
        demoLoop n (pmfs ++ [convolve (pmfs.getLastD []) (pmfs.headD [])])
          (pmfs.getLastD [] ++ heights.drop (pmfs.getLastD []).length)
          (frames ++ [pmfs.getLastD [] ++ heights.drop (pmfs.getLastD []).length])
      else (frames, Except.error DemoError.indexError) := rfl

theorem pmfHistory_step (pmf : List ℚ) (j : ℕ) :
    pmfHistory pmf j ++
        [convolve ((pmfHistory pmf j).getLastD []) ((pmfHistory pmf j).headD [])] =
      pmfHistory pmf (j + 1) := by
  rw [pmfHistory_getLastD, pmfHistory_headD]
  rfl

theorem demoLoop_ok (pmf : List ℚ) :
    ∀ (n j : ℕ) (heights : List ℚ) (frames h : List (List ℚ)),
      (demoLoop n (pmfHistory pmf j) heights frames).2 = Except.ok h →
      h = pmfHistory pmf (j + n) := by
  intro n
  induction n with
  | zero =>
    intro j heights frames h hok
    rw [demoLoop_zero] at hok
    simp only [Except.ok.injEq] at hok
    rw [← hok, Nat.add_zero]
  | succ n ih =>
    intro j heights frames h hok
    rw [demoLoop_succ] at hok
    by_cases hc : ((pmfHistory pmf j).getLastD []).length ≤ heights.length
    · rw [if_pos hc, pmfHistory_step] at hok
      have := ih (j + 1) _ _ h hok
      rw [this]
      congr 1
      omega
    · rw [if_neg hc] at hok
      exact absurd hok (by simp)

theorem demoLoop_no_invalid :
    ∀ (n : ℕ) (pmfs : List (List ℚ)) (heights : List ℚ) (frames : List (List ℚ)),
      errIsInvalidDistribution (demoLoop n pmfs heights frames).2 = false := by
  intro n
  induction n with
  | zero =>
    intro pmfs heights frames
    rfl
  | succ n ih =>
    intro pmfs heights frames
    rw [demoLoop_succ]
    by_cases hc : (pmfs.getLastD []).length ≤ heights.length
    · rw [if_pos hc]
      exact ih _ _ _
    · rw [if_neg hc]
      rfl

theorem bar_bound (d j i0 : ℕ) (hji : j + 1 ≤ i0) :
    (d + 1) + j * d ≤ i0 * d + 2 := by
  have h1 : (j + 1) * d ≤ i0 * d := Nat.mul_le_mul_right d hji
  have h2 : (j + 1) * d = j * d + d := by rw [Nat.succ_mul]
  omega

theorem demoLoop_no_index (pmf : List ℚ) (iters0 : ℕ) (hpmf : pmf ≠ []) :
    ∀ (n j : ℕ) (heights : List ℚ) (frames : List (List ℚ)),
      heights.length = numBars pmf iters0 → j + n = iters0 →
      (demoLoop n (pmfHistory pmf j) heights frames).2 ≠
        Except.error DemoError.indexError := by
  intro n
  induction n with
  | zero =>
    intro j heights frames _ _
    rw [demoLoop_zero]
    simp
  | succ n ih =>
    intro j heights frames hh hj
    rw [demoLoop_succ]
    have hL := List.length_pos.mpr hpmf
    have hcur : ((pmfHistory pmf j).getLastD []).length ≤ heights.length := by
      rw [pmfHistory_getLastD, iteratedConv_length hpmf, hh]
      unfold numBars
      have := bar_bound (pmf.length - 1) j iters0 (by omega)
      generalize hA : j * (pmf.length - 1) = A at this ⊢
      generalize hB : iters0 * (pmf.length - 1) = B at this ⊢
      omega
    rw [if_pos hcur]
    have hh' : ((pmfHistory pmf j).getLastD [] ++
        heights.drop ((pmfHistory pmf j).getLastD []).length).length =
        numBars pmf iters0 := by
      rw [List.length_append, List.length_drop]
      omega
    rw [pmfHistory_step]
    exact ih (j + 1) _ _ hh' (by omega)

/- ### Demo-level lemmas -/

theorem isEmpty_false_of_ne_nil {pmf : List ℚ} (h : pmf ≠ []) :
    pmf.isEmpty = false := by
  cases pmf with
  | nil => exact absurd rfl h
  | cons x xs => rfl

theorem demo_ok_history {pmf : List ℚ} {iters : ℕ} {h : List (List ℚ)}
    (hok : (addingRandomNumbersDemo pmf iters).2 = Except.ok h) :
    h = pmfHistory pmf iters ∧ pmf ≠ [] := by
  unfold addingRandomNumbersDemo at hok
  by_cases h0 : pmf.isEmpty
  · rw [if_pos h0] at hok
    exact absurd hok (by simp)
  · rw [if_neg h0] at hok
    have hne : pmf ≠ [] := by
      cases pmf with
      | nil => exact absurd rfl h0
      | cons x xs => exact List.cons_ne_nil x xs
    by_cases h1 : 0 ≤ listMin pmf
    · rw [if_neg (not_not_intro h1)] at hok
      by_cases h2 : isClose pmf.sum 1
      · rw [if_neg (not_not_intro h2)] at hok
        by_cases h3 : listMax pmf < 1
        · rw [if_neg (not_not_intro h3)] at hok
          by_cases h5 : (extendedPMF pmf iters).length ≠ numBars pmf iters
          · rw [if_pos h5] at hok
            exact absurd hok (by simp)
          · rw [if_neg h5] at hok
            have := demoLoop_ok pmf iters 0 (extendedPMF pmf iters)
              [extendedPMF pmf iters] h hok
            rw [this, Nat.zero_add]
            exact ⟨rfl, hne⟩
        · rw [if_pos h3] at hok
          exact absurd hok (by simp)
      · rw [if_pos h2] at hok
        exact absurd hok (by simp)
    · rw [if_pos h1] at hok
      exact absurd hok (by simp)

/- ### Concrete-evaluation helpers -/

theorem listMin_pair (a b : ℚ) : listMin [a, b] = min a b := rfl

theorem listMax_pair (a b : ℚ) : listMax [a, b] = max a b := rfl

theorem listMin_single (a : ℚ) : listMin [a] = a := rfl

theorem listMax_single (a : ℚ) : listMax [a] = a := rfl

theorem demo_one_iter (pmf : List ℚ) (hne : pmf ≠ [])
    (h1 : 0 ≤ listMin pmf) (h2 : isClose pmf.sum 1) (h3 : listMax pmf < 1)
    (hL : pmf.length ≤ numBars pmf 1) :
    (addingRandomNumbersDemo pmf 1).2 = Except.ok [pmf, convolve pmf pmf] := by
  have hempty := isEmpty_false_of_ne_nil hne
  have hext : (extendedPMF pmf 1).length = numBars pmf 1 := by
    unfold extendedPMF
    rw [List.length_append, List.length_replicate]
    omega
  unfold addingRandomNumbersDemo
  rw [if_neg (by rw [hempty]; exact Bool.false_ne_true),
    if_neg (not_not_intro h1), if_neg (not_not_intro h2),
    if_neg (not_not_intro h3), if_neg (not_not_intro hext)]
  rw [demoLoop_succ]
  have hcur : (([pmf] : List (List ℚ)).getLastD []).length ≤ (extendedPMF pmf 1).length := by
    show pmf.length ≤ _
    rw [hext]
    exact hL
  rw [if_pos hcur, demoLoop_zero]
  rfl

theorem convolve_pair (a b c d : ℚ) :
    convolve [a, b] [c, d] = [a * c, a * d + b * c, b * d] := by
  show (List.range (2 + 2 - 1)).map _ = _
  norm_num [List.range_succ, Finset.sum_range_succ]

theorem half_valid : passesValidation [(1 : ℚ)/2, 1/2] :=
  ⟨by simp, by rw [listMin_pair]; norm_num [min_def], by norm_num [isClose],
    by rw [listMax_pair]; norm_num [max_def]⟩

theorem demo_half_eval : (addingRandomNumbersDemo [(1 : ℚ)/2, 1/2] 1).2 =
    Except.ok [[(1 : ℚ)/2, 1/2], [(1 : ℚ)/4, 1/2, 1/4]] := by
  rw [demo_one_iter [(1 : ℚ)/2, 1/2] (by simp)
    (by rw [listMin_pair]; norm_num [min_def])
    (by norm_num [isClose])
    (by rw [listMax_pair]; norm_num [max_def])
    (by norm_num [numBars])]
  rw [convolve_pair]
  norm_num

theorem cex_valid : passesValidation [(1 : ℚ)/2, 50001/100000] :=
  ⟨by simp, by rw [listMin_pair]; norm_num [min_def],
    by norm_num [isClose, abs_of_nonneg], by rw [listMax_pair]; norm_num [max_def]⟩

theorem demo_cex_eval : (addingRandomNumbersDemo [(1 : ℚ)/2, 50001/100000] 1).2 =
    Except.ok [[(1 : ℚ)/2, 50001/100000],
      convolve [(1 : ℚ)/2, 50001/100000] [(1 : ℚ)/2, 50001/100000]] := by
  apply demo_one_iter
  · simp
  · rw [listMin_pair]; norm_num [min_def]
  · norm_num [isClose, abs_of_nonneg]
  · rw [listMax_pair]; norm_num [max_def]
  · norm_num [numBars]

theorem cex2_valid : passesValidation [(50001 : ℚ)/100000, 1/2] :=
  ⟨by simp, by rw [listMin_pair]; norm_num [min_def],
    by norm_num [isClose, abs_of_nonneg], by rw [listMax_pair]; norm_num [max_def]⟩

theorem demo_cex2_eval : (addingRandomNumbersDemo [(50001 : ℚ)/100000, 1/2] 1).2 =
    Except.ok [[(50001 : ℚ)/100000, 1/2],
      convolve [(50001 : ℚ)/100000, 1/2] [(50001 : ℚ)/100000, 1/2]] := by
  apply demo_one_iter
  · simp
  · rw [listMin_pair]; norm_num [min_def]
  · norm_num [isClose, abs_of_nonneg]
  · rw [listMax_pair]; norm_num [max_def]
  · norm_num [numBars]

theorem single_valid : passesValidation [(999999 : ℚ)/1000000] :=
  ⟨by simp, by rw [listMin_single]; norm_num,
    by norm_num [isClose, abs_of_nonpos], by rw [listMax_single]; norm_num⟩

/- ### Claim theorems -/

/-- C1, counterexample: the empty pmf violates the normalization
precondition (`sum [] = 0` is not close to `1`), yet the demo raises a
Python `ValueError` (from `min` of an empty sequence) rather than the
validation error `InvalidDistributionError`, so the claim as stated
fails at `pmf = []`. -/
theorem C1_counterexample :
    ¬ isClose (List.sum ([] : List ℚ)) 1 ∧
    errIsInvalidDistribution (addingRandomNumbersDemo ([] : List ℚ) 5).2 = false ∧
    (addingRandomNumbersDemo ([] : List ℚ) 5).2 = Except.error DemoError.valueError :=
  ⟨by norm_num [isClose], rfl, rfl⟩

/-- C1 as amended: for every NONEMPTY pmf violating one of the three
preconditions (some entry negative, sum not close to 1 in the
`np.isclose` sense, or maximum entry not strictly below 1),
`addingRandomNumbersDemo` raises `InvalidDistributionError`
synchronously, with no frame rendered and no partial execution; and for
every nonempty pmf satisfying all three preconditions, no validation
error is raised. -/
theorem C1_theorem (pmf : List ℚ) (iters : ℕ) (hne : pmf ≠ []) :
    (((∃ x ∈ pmf, x < 0) ∨ ¬ isClose pmf.sum 1 ∨ ¬ listMax pmf < 1) →
        (addingRandomNumbersDemo pmf iters).1 = [] ∧
        errIsInvalidDistribution (addingRandomNumbersDemo pmf iters).2 = true) ∧
    ((∀ x ∈ pmf, 0 ≤ x) ∧ isClose pmf.sum 1 ∧ listMax pmf < 1 →
        errIsInvalidDistribution (addingRandomNumbersDemo pmf iters).2 = false) := by
  have hempty := isEmpty_false_of_ne_nil hne
  constructor
  · intro hviol
    by_cases h1 : 0 ≤ listMin pmf
    · by_cases h2 : isClose pmf.sum 1
      · by_cases h3 : listMax pmf < 1
        · exfalso
          rcases hviol with hneg | h | h
          · exact (neg_entry_iff hne).mp hneg h1
          · exact h h2
          · exact h h3
        · refine ⟨?_, ?_⟩ <;>
            simp [addingRandomNumbersDemo, hempty, h1, h2, h3, errIsInvalidDistribution]
      · refine ⟨?_, ?_⟩ <;>
          simp [addingRandomNumbersDemo, hempty, h1, h2, errIsInvalidDistribution]
    · refine ⟨?_, ?_⟩ <;>
        simp [addingRandomNumbersDemo, hempty, h1, errIsInvalidDistribution]
  · rintro ⟨h1', h2, h3⟩
    have h1 : 0 ≤ listMin pmf := (listMin_nonneg_iff hne).mpr h1'
    by_cases h5 : (extendedPMF pmf iters).length ≠ numBars pmf iters
    · simp [addingRandomNumbersDemo, hempty, h1, h2, h3, h5, errIsInvalidDistribution]
    · have hred : addingRandomNumbersDemo pmf iters =
          demoLoop iters [pmf] (extendedPMF pmf iters) [extendedPMF pmf iters] := by
        simp [addingRandomNumbersDemo, hempty, h1, h2, h3, h5]
      rw [hred]
      exact demoLoop_no_invalid _ _ _ _

/-- C1 witness: `[2]` is nonempty and fails normalization, and the demo
indeed raises the validation error before drawing any frame. -/
theorem C1_witness :
    (addingRandomNumbersDemo [(2 : ℚ)] 5).1 = [] ∧
    errIsInvalidDistribution (addingRandomNumbersDemo [(2 : ℚ)] 5).2 = true :=
  (C1_theorem [(2 : ℚ)] 5 (by simp)).1
    (Or.inr (Or.inl (by norm_num [isClose, abs_of_nonneg])))

/-- C2, counterexample: at the positive arguments `tMax = 3`, `sigma = 1`,
`eps = 2`, `np.arange(0, 3, 2)` is `[0, 2]`, so the walk has
`ceil(3/2) = 2` entries, not `floor(3/2) = 1` as the claim asserts. -/
theorem C2_counterexample :
    (0 : ℚ) < 3 ∧ (0 : ℚ) < 1 ∧ (0 : ℚ) < 2 ∧
    (randomWalk 3 1 2 zeroDraws).length ≠ (⌊(3 : ℚ) / 2⌋).toNat := by
  refine ⟨by norm_num, by norm_num, by norm_num, ?_⟩
  rw [randomWalk_length]
  unfold arangeLen
  rw [show ⌈(3 : ℚ) / 2⌉ = 2 from by
      rw [Int.ceil_eq_iff] <;> norm_num,
    show ⌊(3 : ℚ) / 2⌋ = 1 by norm_num]
  decide

/-- C2 as amended: for every positive `tMax`, `sigma` and `eps`,
`randomWalk` returns a sequence of length `ceil(tMax/eps)` (this agrees
with the claimed `floor(tMax/eps)` exactly when `eps` divides `tMax`, as
in the spec's own example `tMax = 1`, `eps = 0.1`). -/
theorem C2_theorem (tMax sigma eps : ℚ) (draws : ℕ → ℚ)
    (ht : 0 < tMax) (hs : 0 < sigma) (he : 0 < eps) :
    (randomWalk tMax sigma eps draws).length = (⌈tMax / eps⌉).toNat :=
  randomWalk_length tMax sigma eps draws

/-- C2 witness at the source's default arguments `tMax = 1`, `sigma = 1`,
`eps = 1/10`. -/
theorem C2_witness :
    (0 : ℚ) < 1 ∧ (0 : ℚ) < 1 ∧ (0 : ℚ) < 1 / 10 ∧
    (randomWalk 1 1 (1 / 10) zeroDraws).length = (⌈(1 : ℚ) / (1 / 10)⌉).toNat :=
  ⟨by norm_num, by norm_num, by norm_num,
    C2_theorem 1 1 (1 / 10) zeroDraws (by norm_num) (by norm_num) (by norm_num)⟩

/-- C5: with the successive normal draws treated as a given input stream,
`randomWalk` produces one running total per time step (the stepped range
`0, eps, 2*eps, ... < tMax` has `ceil(tMax/eps)` steps), the `k`-th
output being the sum of the first `k + 1` draws; the initial `0` is
excluded. -/
theorem C5_theorem (tMax sigma eps : ℚ) (draws : ℕ → ℚ)
    (ht : 0 < tMax) (hs : 0 ≤ sigma) (he : 0 < eps) :
    randomWalk tMax sigma eps draws =
      (List.range ((⌈tMax / eps⌉).toNat)).map
        (fun k => ∑ i ∈ Finset.range (k + 1), draws i) :=
  randomWalk_eq_partialSums tMax sigma eps draws

/-- C5 witness at `tMax = 1`, `sigma = 1`, `eps = 1/2` with the
deterministic draw stream `0, 1, 2, ...`. -/
theorem C5_witness :
    (0 : ℚ) < 1 ∧ (0 : ℚ) ≤ 1 ∧ (0 : ℚ) < 1 / 2 ∧
    randomWalk 1 1 (1 / 2) natDraws =
      (List.range ((⌈(1 : ℚ) / (1 / 2)⌉).toNat)).map
        (fun k => ∑ i ∈ Finset.range (k + 1), natDraws i) :=
  ⟨by norm_num, by norm_num, by norm_num,
    C5_theorem 1 1 (1 / 2) natDraws (by norm_num) (by norm_num) (by norm_num)⟩

/-- C10: whenever the stepped range from `0` toward `tMax` with step
`eps` is empty (`tMax ≤ 0` with `eps > 0`, or `eps < 0` with
`tMax ≥ 0`), `randomWalk` returns the empty sequence; being a total
function of its inputs, it raises no error there. -/
theorem C10_theorem (tMax sigma eps : ℚ) (draws : ℕ → ℚ)
    (h : (0 < eps ∧ tMax ≤ 0) ∨ (eps < 0 ∧ 0 ≤ tMax)) :
    randomWalk tMax sigma eps draws = [] := by
  have hdiv : tMax / eps ≤ 0 := by
    rcases h with ⟨he, ht⟩ | ⟨he, ht⟩
    · exact div_nonpos_iff.mpr (Or.inr ⟨ht, le_of_lt he⟩)
    · exact div_nonpos_iff.mpr (Or.inl ⟨ht, le_of_lt he⟩)
  have hceil : ⌈tMax / eps⌉ ≤ 0 := Int.ceil_le.mpr (by exact_mod_cast hdiv)
  have hlen : arangeLen tMax eps = 0 := by
    unfold arangeLen
    rw [Int.toNat_of_nonpos hceil]
  unfold randomWalk
  rw [hlen]
  rfl

/-- C10 witness: `tMax = -1`, `eps = 1/2` yields the empty walk. -/
theorem C10_witness :
    ((0 : ℚ) < 1 / 2 ∧ (-1 : ℚ) ≤ 0) ∧
    randomWalk (-1) 1 (1 / 2) zeroDraws = [] :=
  ⟨⟨by norm_num, by norm_num⟩,
    C10_theorem (-1) 1 (1 / 2) zeroDraws (Or.inl ⟨by norm_num, by norm_num⟩)⟩

/-- C3, counterexample: `[0.5, 0.50001]` passes all three validation
checks (its sum `1.00001` is within `np.isclose` tolerance of 1), yet
after a single iteration the final history PMF sums to `1.00001^2`,
which is NOT within tolerance of 1 — the `isclose` precondition is not
preserved by convolution. -/
theorem C3_counterexample :
    passesValidation [(1 : ℚ)/2, 50001/100000] ∧
    demoOutcomeOk (addingRandomNumbersDemo [(1 : ℚ)/2, 50001/100000] 1).2 = true ∧
    ¬ isClose ((demoHistory [(1 : ℚ)/2, 50001/100000] 1).getLastD []).sum 1 := by
  refine ⟨cex_valid, ?_, ?_⟩
  · rw [demo_cex_eval]
    rfl
  · have hgd : (demoHistory [(1 : ℚ)/2, 50001/100000] 1).getLastD [] =
        convolve [(1 : ℚ)/2, 50001/100000] [(1 : ℚ)/2, 50001/100000] := by
      unfold demoHistory
      rw [demo_cex_eval]
      rfl
    rw [hgd, convolve_sum (by simp) (by simp)]
    norm_num [isClose, abs_of_nonneg]

/-- C3 as amended: for every nonempty pmf with non-negative entries, sum
EXACTLY 1 and maximum entry < 1, and every number of iterations, whenever
`addingRandomNumbersDemo` runs to completion the final PMF of its history
sums exactly to 1 (convolution preserves total mass: the sum of a
convolution is the product of the sums). -/
theorem C3_theorem (pmf : List ℚ) (iters : ℕ) (h : List (List ℚ))
    (hne : pmf ≠ []) (hnn : ∀ x ∈ pmf, 0 ≤ x) (hsum : pmf.sum = 1)
    (hmax : listMax pmf < 1)
    (hok : (addingRandomNumbersDemo pmf iters).2 = Except.ok h) :
    (h.getLastD []).sum = 1 := by
  rcases demo_ok_history hok with ⟨rfl, _⟩
  rw [pmfHistory_getLastD]
  exact iteratedConv_sum hne hsum iters

/-- C3 witness at `pmf = [1/2, 1/2]`, one iteration. -/
theorem C3_witness :
    passesValidation [(1 : ℚ)/2, 1/2] ∧
    (([[(1 : ℚ)/2, 1/2], [(1 : ℚ)/4, 1/2, 1/4]] : List (List ℚ)).getLastD []).sum = 1 :=
  ⟨half_valid,
    C3_theorem [(1 : ℚ)/2, 1/2] 1 [[(1 : ℚ)/2, 1/2], [(1 : ℚ)/4, 1/2, 1/4]]
      (by simp) (by norm_num) (by norm_num) (by rw [listMax_pair]; norm_num [max_def])
      demo_half_eval⟩

/-- C4, counterexample: `[0.50001, 0.5]` passes validation, yet the
second element of the history (one convolution) does not satisfy the
spec's PMF invariant: its entries sum to `1.00001^2`, outside the
`np.isclose` tolerance of 1. -/
theorem C4_counterexample :
    passesValidation [(50001 : ℚ)/100000, 1/2] ∧
    demoOutcomeOk (addingRandomNumbersDemo [(50001 : ℚ)/100000, 1/2] 1).2 = true ∧
    ¬ pmfInvariantClose ((demoHistory [(50001 : ℚ)/100000, 1/2] 1).getD 1 []) := by
  refine ⟨cex2_valid, ?_, ?_⟩
  · rw [demo_cex2_eval]
    rfl
  · have hgd : (demoHistory [(50001 : ℚ)/100000, 1/2] 1).getD 1 [] =
        convolve [(50001 : ℚ)/100000, 1/2] [(50001 : ℚ)/100000, 1/2] := by
      unfold demoHistory
      rw [demo_cex2_eval]
      rfl
    intro hinv
    have hsum := hinv.2
    rw [hgd, convolve_sum (by simp) (by simp)] at hsum
    revert hsum
    norm_num [isClose, abs_of_nonneg]

/-- C4 as amended: for every nonempty pmf with non-negative entries, sum
EXACTLY 1 and maximum entry < 1, whenever `addingRandomNumbersDemo` runs
to completion every element of its PMF history satisfies the invariant
with exact normalization: all entries lie in `[0, 1)` and the entries sum
exactly to 1.  In particular, convolving a valid PMF with the original
one never produces a negative entry or an entry `≥ 1`. -/
theorem C4_theorem (pmf : List ℚ) (iters : ℕ) (h : List (List ℚ))
    (hne : pmf ≠ []) (hnn : ∀ x ∈ pmf, 0 ≤ x) (hsum : pmf.sum = 1)
    (hmax : listMax pmf < 1)
    (hok : (addingRandomNumbersDemo pmf iters).2 = Except.ok h) :
    ∀ q ∈ h, isPMFexact q := by
  rcases demo_ok_history hok with ⟨rfl, _⟩
  intro q hq
  rcases pmfHistory_mem hq with ⟨m, _, rfl⟩
  exact iteratedConv_isPMF hne hnn hsum hmax m

/-- C4 witness at `pmf = [1/2, 1/2]`, one iteration, checking the
invariant on the convolved element `[1/4, 1/2, 1/4]`. -/
theorem C4_witness :
    passesValidation [(1 : ℚ)/2, 1/2] ∧ isPMFexact [(1 : ℚ)/4, 1/2, 1/4] :=
  ⟨half_valid,
    C4_theorem [(1 : ℚ)/2, 1/2] 1 [[(1 : ℚ)/2, 1/2], [(1 : ℚ)/4, 1/2, 1/4]]
      (by simp) (by norm_num) (by norm_num) (by rw [listMax_pair]; norm_num [max_def])
      demo_half_eval [(1 : ℚ)/4, 1/2, 1/4] (by simp)⟩

/-- C6: for every pmf passing the three validation checks and every
`k ≥ 0`, whenever `addingRandomNumbersDemo pmf k` runs to completion,
the PMF history it built has exactly `k + 1` elements and its first
element is the initial pmf. -/
theorem C6_theorem (pmf : List ℚ) (k : ℕ) (h : List (List ℚ))
    (hval : passesValidation pmf)
    (hok : (addingRandomNumbersDemo pmf k).2 = Except.ok h) :
    h.length = k + 1 ∧ h.headD [] = pmf := by
  rcases demo_ok_history hok with ⟨rfl, _⟩
  exact ⟨pmfHistory_length pmf k, pmfHistory_headD pmf k⟩

/-- C6 witness at `pmf = [1/2, 1/2]`, `k = 1`. -/
theorem C6_witness :
    passesValidation [(1 : ℚ)/2, 1/2] ∧
    ([[(1 : ℚ)/2, 1/2], [(1 : ℚ)/4, 1/2, 1/4]] : List (List ℚ)).length = 1 + 1 ∧
    ([[(1 : ℚ)/2, 1/2], [(1 : ℚ)/4, 1/2, 1/4]] : List (List ℚ)).headD [] =
      [(1 : ℚ)/2, 1/2] :=
  ⟨half_valid,
    C6_theorem [(1 : ℚ)/2, 1/2] 1 [[(1 : ℚ)/2, 1/2], [(1 : ℚ)/4, 1/2, 1/4]]
      half_valid demo_half_eval⟩

/-- C7: for every pmf passing validation, whenever the demo runs to
completion each history element after the first is the full discrete
convolution of its predecessor with the original input pmf, growing the
support length by `len pmf - 1`; and in general the full convolution of
nonempty `a` and `b` has length `len a + len b - 1` with entry `k` equal
to the sum of `a[i] * b[k-i]` over the valid indices `i`. -/
theorem C7_theorem (pmf : List ℚ) (iters : ℕ) (h : List (List ℚ))
    (hval : passesValidation pmf)
    (hok : (addingRandomNumbersDemo pmf iters).2 = Except.ok h) :
    (∀ n, n < iters →
        h.getD (n + 1) [] = convolve (h.getD n []) pmf ∧
        (h.getD (n + 1) []).length = (h.getD n []).length + (pmf.length - 1)) ∧
    (∀ a b : List ℚ, a ≠ [] → b ≠ [] →
        (convolve a b).length = a.length + b.length - 1 ∧
        ∀ k, k < (convolve a b).length →
          (convolve a b).getD k 0 =
            ∑ i ∈ (Finset.range a.length).filter (fun i => i ≤ k ∧ k - i < b.length),
              a.getD i 0 * b.getD (k - i) 0) := by
  rcases demo_ok_history hok with ⟨rfl, hne⟩
  constructor
  · intro n hn
    rw [pmfHistory_getD (by omega : n + 1 ≤ iters), pmfHistory_getD (by omega : n ≤ iters)]
    refine ⟨rfl, ?_⟩
    show (convolve (iteratedConv pmf n) pmf).length = _
    rw [convolve_length]
    have h1 := List.length_pos.mpr (iteratedConv_ne_nil hne n)
    have h2 := List.length_pos.mpr hne
    omega
  · intro a b ha hb
    exact ⟨convolve_length a b, fun k hk => convolve_getD_valid hb hk⟩

/-- C7 witness at `pmf = [1/2, 1/2]`, one iteration. -/
theorem C7_witness :
    passesValidation [(1 : ℚ)/2, 1/2] ∧
    ([[(1 : ℚ)/2, 1/2], [(1 : ℚ)/4, 1/2, 1/4]] : List (List ℚ)).getD 1 [] =
      convolve (([[(1 : ℚ)/2, 1/2], [(1 : ℚ)/4, 1/2, 1/4]] : List (List ℚ)).getD 0 [])
        [(1 : ℚ)/2, 1/2] ∧
    (convolve [(1 : ℚ)/2, 1/2] [(1 : ℚ)/2, 1/2]).length = 2 + 2 - 1 :=
  ⟨half_valid,
    ((C7_theorem [(1 : ℚ)/2, 1/2] 1 [[(1 : ℚ)/2, 1/2], [(1 : ℚ)/4, 1/2, 1/4]]
        half_valid demo_half_eval).1 0 (by norm_num)).1,
    ((C7_theorem [(1 : ℚ)/2, 1/2] 1 [[(1 : ℚ)/2, 1/2], [(1 : ℚ)/4, 1/2, 1/4]]
        half_valid demo_half_eval).2 [(1 : ℚ)/2, 1/2] [(1 : ℚ)/2, 1/2]
        (by simp) (by simp)).1⟩

/-- C8: for `pmf = [0.5, 0.5]` and one iteration, the second element of
the PMF history equals `[0.25, 0.5, 0.25]`, the convolution of
`[0.5, 0.5]` with itself. -/
theorem C8_theorem :
    demoHistory [(1 : ℚ)/2, 1/2] 1 = [[(1 : ℚ)/2, 1/2], [(1 : ℚ)/4, 1/2, 1/4]] ∧
    convolve [(1 : ℚ)/2, 1/2] [(1 : ℚ)/2, 1/2] = [(1 : ℚ)/4, 1/2, 1/4] := by
  constructor
  · unfold demoHistory
    rw [demo_half_eval]
  · rw [convolve_pair]
    norm_num

/-- C9, counterexample: the three validation checks do NOT force
`len pmf ≥ 2`: the singleton `[0.999999]` passes all three checks
(`0.999999` is within `np.isclose` tolerance of 1 and strictly below 1)
while having length 1. -/
theorem C9_counterexample :
    passesValidation [(999999 : ℚ)/1000000] ∧
    ([(999999 : ℚ)/1000000] : List ℚ).length < 2 :=
  ⟨single_valid, by simp⟩

/-- C9 as amended: for every pmf passing validation (whose length may be
1) and every `iterations ≥ 0`, the PMF rendered at loop step
`i < iterations` has length `len pmf + i * (len pmf - 1)`, which never
exceeds `iterations * (len pmf - 1) + 2`, the number of bars `setupRun`
creates; consequently `addingRandomNumbersDemo` never raises an
`IndexError` from `barPlot[idx]`. -/
theorem C9_theorem (pmf : List ℚ) (iters : ℕ) (hval : passesValidation pmf) :
    (∀ i, i < iters →
        (iteratedConv pmf i).length = pmf.length + i * (pmf.length - 1) ∧
        (iteratedConv pmf i).length ≤ numBars pmf iters) ∧
    (addingRandomNumbersDemo pmf iters).2 ≠ Except.error DemoError.indexError := by
  rcases hval with ⟨hne, h1, h2, h3⟩
  have hL := List.length_pos.mpr hne
  constructor
  · intro i hi
    refine ⟨iteratedConv_length hne i, ?_⟩
    rw [iteratedConv_length hne i]
    unfold numBars
    have hb := bar_bound (pmf.length - 1) i iters (by omega)
    generalize hA : i * (pmf.length - 1) = A at hb ⊢
    generalize hB : iters * (pmf.length - 1) = B at hb ⊢
    omega
  · have hempty := isEmpty_false_of_ne_nil hne
    unfold addingRandomNumbersDemo
    rw [if_neg (by rw [hempty]; exact Bool.false_ne_true),
      if_neg (not_not_intro h1), if_neg (not_not_intro h2),
      if_neg (not_not_intro h3)]
    by_cases h5 : (extendedPMF pmf iters).length ≠ numBars pmf iters
    · rw [if_pos h5]
      simp
    · rw [if_neg h5]
      push_neg at h5
      exact demoLoop_no_index pmf iters hne iters 0
        (extendedPMF pmf iters) [extendedPMF pmf iters] h5 (by omega)

/-- C9 witness at `pmf = [1/2, 1/2]`, one iteration. -/
theorem C9_witness :
    passesValidation [(1 : ℚ)/2, 1/2] ∧
    (iteratedConv [(1 : ℚ)/2, 1/2] 0).length = 2 + 0 * (2 - 1) ∧
    (iteratedConv [(1 : ℚ)/2, 1/2] 0).length ≤ numBars [(1 : ℚ)/2, 1/2] 1 ∧
    (addingRandomNumbersDemo [(1 : ℚ)/2, 1/2] 1).2 ≠
      Except.error DemoError.indexError :=
  ⟨half_valid,
    ((C9_theorem [(1 : ℚ)/2, 1/2] 1 half_valid).1 0 (by norm_num)).1,
    ((C9_theorem [(1 : ℚ)/2, 1/2] 1 half_valid).1 0 (by norm_num)).2,
    (C9_theorem [(1 : ℚ)/2, 1/2] 1 half_valid).2⟩
